import Mathlib

/-!
# Verification of the HR audit pipeline (hr-audit-poc)

Shallow embedding of the audit pipeline of this repository and proofs of the
specified properties.  The backend pipeline (`backend/app/main.py`) is not part
of the sources available here (only its documentation and the React frontend
are), so the executor, rules engine, policy checker, artifact store and status
reporter are modelled from the specification; the frontend pieces
(`frontend/src/App.jsx` polling loop, `SummaryCharts.jsx` doughnut data,
`ScratchpadCards.jsx` card parser) are embedded from their sources.
-/

/-! ## Stage states and the pipeline executor (modelled from the spec) -/

/-- Status of a run or of a single stage (spec §3, Data Model). -/
inductive StageStatus where
  | pending
  | running
  | completed
  | error
deriving DecidableEq, Repr

/-- The fixed ordered stage list of the pipeline (spec §4.2). -/
def NODES : List String :=
  ["data_integrator", "normalizer", "rules_engine", "policy_check", "summary"]

/-- Number of pipeline stages. -/
def numStages : Nat := NODES.length

/-- Observable executor events: a stage starts (is marked `running`), or a
stage finishes with a final status (`completed` or `error`). -/
inductive Ev where
  | start (i : Nat)
  | finish (i : Nat) (st : StageStatus)
deriving DecidableEq, Repr

/-- Modelled from the spec: the Pipeline Executor of `backend/app/main.py`
(absent from the available sources).  Spec §4.2: for each stage in order,
mark it `running`; on success mark it `completed` and proceed to the next
stage; on failure mark it `error` and stop, leaving the remaining stages
`pending`.  `res i` is the outcome of stage `i`'s stage function
(`true` = success).  `i` is the current stage index, the second argument the
number of stages still to run. -/
def execGo (res : Nat → Bool) : Nat → Nat → List Ev
  | _, 0 => []
  | i, r + 1 =>
      Ev.start i ::
        (if res i then Ev.finish i StageStatus.completed :: execGo res (i + 1) r
         else [Ev.finish i StageStatus.error])

/-- The event trace of one run of the executor. -/
def trace (res : Nat → Bool) : List Ev := execGo res 0 numStages

/-- Initial registry state of a run: every stage `pending` (spec §4.1). -/
def initSt : Nat → StageStatus := fun _ => StageStatus.pending

/-- Effect of one executor event on the per-stage states of the Run
Registry. -/
def applyEv (st : Nat → StageStatus) : Ev → (Nat → StageStatus)
  | Ev.start i => fun j => if j = i then StageStatus.running else st j
  | Ev.finish i s => fun j => if j = i then s else st j

/-- Stage states of the run after the first `t` registry transitions. -/
def statesAt (res : Nat → Bool) (t : Nat) : Nat → StageStatus :=
  ((trace res).take t).foldl applyEv initSt

/-- Stage states of the run after the executor has finished. -/
def finalState (res : Nat → Bool) : Nat → StageStatus :=
  (trace res).foldl applyEv initSt

/-- The allowed single transitions of a stage status: stay put, or move one
step along `pending → running → {completed, error}`. -/
def statusStep (a b : StageStatus) : Prop :=
  a = b ∨ (a = StageStatus.pending ∧ b = StageStatus.running) ∨
    (a = StageStatus.running ∧
      (b = StageStatus.completed ∨ b = StageStatus.error))

instance (a b : StageStatus) : Decidable (statusStep a b) := by
  unfold statusStep
  infer_instance

/-- Sequencing invariant of a registry state: a stage that has left `pending`
has every earlier stage `completed`. -/
def Shape (st : Nat → StageStatus) : Prop :=
  ∀ i j, i < j → st j ≠ StageStatus.pending → st i = StageStatus.completed

/-- A state whose stages are `completed` strictly below a boundary stage `b`,
have status `x` at `b`, and are `pending` above `b`. -/
def Boundary (b : Nat) (x : StageStatus) (st : Nat → StageStatus) : Prop :=
  (∀ j, j < b → st j = StageStatus.completed) ∧ st b = x ∧
    (∀ j, b < j → st j = StageStatus.pending)

/-- An event list is well formed from a state `st` when every state reached
while folding it satisfies the sequencing invariant and every single event is
a legal stage transition. -/
inductive Ok : (Nat → StageStatus) → List Ev → Prop where
  | nil : ∀ {st}, Shape st → Ok st []
  | cons : ∀ {st e evs}, Shape st →
      (∀ i, statusStep (st i) (applyEv st e i)) →
      Ok (applyEv st e) evs → Ok st (e :: evs)

/-- Stage indices started by an event list, in order. -/
def startsOf (evs : List Ev) : List Nat :=
  evs.filterMap fun e =>
    match e with
    | Ev.start i => some i
    | Ev.finish _ _ => none

/-- Stage indices started by a run, in the order they were started. -/
def startedStages (res : Nat → Bool) : List Nat := startsOf (trace res)

/-- Modelled from the spec: derived run status of `backend/app/main.py`
(absent from the available sources).  Spec §4.2: `error` if any stage is
`error`; else `completed` if all stages are `completed`; else `running` if
any stage is `running`; else `pending`. -/
def derivedStatus (st : Nat → StageStatus) : StageStatus :=
  if (List.range numStages).any (fun i => st i == StageStatus.error) then
    StageStatus.error
  else if (List.range numStages).all (fun i => st i == StageStatus.completed) then
    StageStatus.completed
  else if (List.range numStages).any (fun i => st i == StageStatus.running) then
    StageStatus.running
  else
    StageStatus.pending

/-- Per-stage entry of a run-status response: status plus the recorded error
message, if any (spec §3, Stage State). -/
structure StageReport where
  status : StageStatus
  message : Option String
deriving DecidableEq, Repr

/-- Modelled from the spec: the Status Reporter of `backend/app/main.py`
(absent from the available sources).  Spec §4.6/§7: a run-status query is a
total, read-only projection returning the derived run status together with
every stage's state; an errored stage carries its failure message
(`msg i` is the failure reason recorded for stage `i`). -/
def statusQuery (res : Nat → Bool) (msg : Nat → String) :
    StageStatus × List (Nat × StageReport) :=
  (derivedStatus (finalState res),
    (List.range numStages).map fun i =>
      (i, { status := finalState res i
            message :=
              if finalState res i == StageStatus.error then some (msg i)
              else none }))

/-! ## Employee records and the rules engine (modelled from the spec) -/

/-- One row of the employee table (spec §3, Employee Record). -/
structure EmployeeRecord where
  emp_id : String
  emp_name : String
  position : String
  bonus : Int
  paygrade : String
  manager_email : String
  job_allocation : String
  investigation_status : String
  leave_days_max_streak : Int
deriving DecidableEq, Repr

/-- Deduplication key of a record (spec §3, Duplicate Group). -/
def dedupKey (r : EmployeeRecord) : String × String := (r.emp_id, r.emp_name)

/-- Modelled from the spec: deduplication of the rules engine of
`backend/app/main.py` (absent from the available sources).  Spec §4.3: the
first record of each `(emp_id, emp_name)` group in original row order is
canonical and kept; `seen` accumulates the keys already encountered. -/
def dedupGo (seen : List (String × String)) :
    List EmployeeRecord → List EmployeeRecord
  | [] => []
  | r :: rest =>
      if dedupKey r ∈ seen then dedupGo seen rest
      else r :: dedupGo (dedupKey r :: seen) rest

/-- The final (post-deduplication) record set. -/
def finalRecords (rows : List EmployeeRecord) : List EmployeeRecord :=
  dedupGo [] rows

/-- The rows excluded by deduplication (non-first occurrences of a key). -/
def droppedGo (seen : List (String × String)) :
    List EmployeeRecord → List EmployeeRecord
  | [] => []
  | r :: rest =>
      if dedupKey r ∈ seen then r :: droppedGo seen rest
      else droppedGo (dedupKey r :: seen) rest

/-- The `duplicates_removed` count reported by the rules engine: the number
of rows counted as duplicates and excluded from the final record set. -/
def duplicatesRemoved (rows : List EmployeeRecord) : Nat :=
  (droppedGo [] rows).length

/-- The three fields compared by mismatch detection (spec §3, Mismatch). -/
inductive MField where
  | position
  | bonus
  | paygrade
deriving DecidableEq, Repr

/-- Value of a compared field in a record (`bonus` is numeric, the other two
are strings). -/
def fieldVal (f : MField) (r : EmployeeRecord) : String ⊕ Int :=
  match f with
  | MField.position => Sum.inl r.position
  | MField.bonus => Sum.inr r.bonus
  | MField.paygrade => Sum.inl r.paygrade

/-- The fixed order in which the three fields are compared. -/
def MFIELDS : List MField := [MField.position, MField.bonus, MField.paygrade]

/-- A field-level conflict between a duplicate-group member and its group's
canonical record (spec §3, Mismatch). -/
structure Mismatch where
  emp_id : String
  field : MField
  canonical_value : String ⊕ Int
  conflicting_value : String ⊕ Int
deriving DecidableEq, Repr

/-- Modelled from the spec: mismatch entries produced when comparing one
non-canonical group member against its canonical record — one entry per
differing field (spec §4.3, Mismatch detection). -/
def mismatchesFor (canon member : EmployeeRecord) : List Mismatch :=
  (MFIELDS.filter fun f => decide (fieldVal f member ≠ fieldVal f canon)).map
    fun f =>
      { emp_id := canon.emp_id
        field := f
        canonical_value := fieldVal f canon
        conflicting_value := fieldVal f member }

/-- Modelled from the spec: pairs `(canonical, member)` for every
non-canonical duplicate-group member, in original row order; `seen` holds
the canonical (first-occurrence) records met so far. -/
def pairGo (seen : List EmployeeRecord) :
    List EmployeeRecord → List (EmployeeRecord × EmployeeRecord)
  | [] => []
  | r :: rest =>
      match seen.find? (fun c => decide (dedupKey c = dedupKey r)) with
      | some c => (c, r) :: pairGo seen rest
      | none => pairGo (seen ++ [r]) rest

/-- All `(canonical, non-canonical member)` pairs of the table. -/
def dupPairs (rows : List EmployeeRecord) :
    List (EmployeeRecord × EmployeeRecord) :=
  pairGo [] rows

/-- Modelled from the spec: the full mismatch list of the rules engine of
`backend/app/main.py` (absent from the available sources); each
non-canonical member contributes one entry per differing compared field
(spec §4.3). -/
def mismatches (rows : List EmployeeRecord) : List Mismatch :=
  (dupPairs rows).flatMap fun p => mismatchesFor p.1 p.2

/-- Per-field mismatch count reported by the rules engine: the number of
mismatch entries for that field. -/
def mismatchCount (rows : List EmployeeRecord) (f : MField) : Nat :=
  (mismatches rows).countP fun m => m.field == f

/-! ## Policy checker (modelled from the spec) -/

/-- The fixed leave-streak threshold (spec §4.4). -/
def POLICY_MAX_LEAVE : Int := 20

/-- Modelled from the spec: the single rule of the Policy Checker of
`backend/app/main.py` (absent from the available sources), spec §4.4:
`leave_days_max_streak > 20` (exclusive threshold). -/
def violatesLeave (r : EmployeeRecord) : Bool :=
  POLICY_MAX_LEAVE < r.leave_days_max_streak

/-- A record breaching the leave-streak threshold (spec §3). -/
structure PolicyViolation where
  emp_id : String
  leave_days_max_streak : Int
deriving DecidableEq, Repr

/-- The final records flagged by the policy checker. -/
def flaggedRecords (final : List EmployeeRecord) : List EmployeeRecord :=
  final.filter violatesLeave

/-- The structured policy-violation entries of the policy checker. -/
def policyViolations (final : List EmployeeRecord) : List PolicyViolation :=
  (flaggedRecords final).map fun r =>
    { emp_id := r.emp_id, leave_days_max_streak := r.leave_days_max_streak }

/-! ## Investigation rollup and its summary surface -/

/-- The fixed set of recognized investigation statuses (spec §4.3; the docs
list `past_cleared`, `past_flagged`, `ongoing`). -/
def RECOGNIZED_STATUSES : List String := ["past_cleared", "past_flagged", "ongoing"]

/-- The investigation rollup: one count per recognized status, plus a
separate bucket for unrecognized or missing statuses. -/
structure InvRollup where
  past_cleared : Nat
  past_flagged : Nat
  ongoing : Nat
  other : Nat
deriving DecidableEq, Repr

/-- Modelled from the spec: the investigation rollup of the rules engine of
`backend/app/main.py` (absent from the available sources), spec §4.3:
final records are counted by `investigation_status` across the fixed set of
recognized values; anything else is counted separately. -/
def investigationRollup (final : List EmployeeRecord) : InvRollup :=
  { past_cleared := final.countP fun r => r.investigation_status == "past_cleared"
    past_flagged := final.countP fun r => r.investigation_status == "past_flagged"
    ongoing := final.countP fun r => r.investigation_status == "ongoing"
    other := final.countP fun r =>
      !(RECOGNIZED_STATUSES.contains r.investigation_status) }

/-- The doughnut-chart data of the summary surface, embedded from
`frontend/src/components/SummaryCharts.jsx` (`data: [inv.past_cleared,
inv.past_flagged, inv.ongoing]`): only the three recognized buckets are
reported. -/
def doughnutData (inv : InvRollup) : List Nat :=
  [inv.past_cleared, inv.past_flagged, inv.ongoing]

/-! ## Artifact store reads (modelled from the spec) -/

/-- Stages of a run that reached `completed` (the only stages that wrote
their scratchpad and artifact, spec §4.2 step 3). -/
def completedStages (res : Nat → Bool) : List Nat :=
  (List.range numStages).filter fun i =>
    finalState res i == StageStatus.completed

/-- Modelled from the spec: the per-run scratchpad store of the Artifact
Store of `backend/app/main.py` (absent from the available sources): one
text entry per stage that completed, keyed by stage index. -/
def scratchpadStore (res : Nat → Bool) : List (Nat × String) :=
  (completedStages res).map fun i => (i, NODES.getD i "")

/-- Modelled from the spec: `readScratchpad` of the Artifact Store
(spec §4.5): a total lookup returning `none` (NotFound) for a stage that
has not produced output, never failing. -/
def readScratchpad (store : List (Nat × String)) (stage : Nat) :
    Option String :=
  (store.find? fun p => p.1 == stage).map fun p => p.2

/-- The per-stage artifact names of the pipeline (spec §6: artifact JSON
files keyed by name, one per stage; the names are listed in the repo's
documentation). -/
def ARTIFACT_NAMES : List String :=
  ["data_integrator_output", "normalized_snapshot", "rules_results",
    "policy_results", "summary"]

/-- Modelled from the spec: the per-run artifact store of the Artifact
Store of `backend/app/main.py` (absent from the available sources): one
JSON payload per stage that completed, keyed by the stage's artifact
name (spec §4.2 step 3, §4.5). -/
def artifactStore (res : Nat → Bool) : List (String × String) :=
  (completedStages res).map fun i => (ARTIFACT_NAMES.getD i "", NODES.getD i "")

/-- Modelled from the spec: `readArtifact` of the Artifact Store
(spec §4.5): a total lookup by artifact name returning `none` (NotFound)
for an artifact that has not been produced, never failing. -/
def readArtifact (store : List (String × String)) (name : String) :
    Option String :=
  (store.find? fun p => p.1 == name).map fun p => p.2

/-! ## Frontend polling loop, embedded from `frontend/src/App.jsx` -/

/-- State of the status-polling effect of `App.jsx`: the `stopped` flag of
the effect closure and whether the `setInterval` timer is still active. -/
structure PollState where
  stopped : Bool
  timerActive : Bool
deriving DecidableEq, Repr

/-- A backend request issued by one poll tick (`getStatus` / `getNodes`). -/
inductive PollReq where
  | statusReq
  | nodesReq
deriving DecidableEq, Repr

/-- Embedded from `App.jsx`: `status.status === 'completed' ||
status.status === 'error'`. -/
def terminalStatus (st : String) : Bool := st == "completed" || st == "error"

/-- Embedded from `frontend/src/App.jsx` (the `tick` closure of the polling
effect): a stopped tick returns immediately with no requests; otherwise the
tick issues the status and nodes requests and, when the polled run status is
`completed` or `error`, sets `stopped` and clears the interval. -/
def tick (s : PollState) (st : String) : PollState × List PollReq :=
  if s.stopped then (s, [])
  else if terminalStatus st then
    ({ stopped := true, timerActive := false },
      [PollReq.statusReq, PollReq.nodesReq])
  else (s, [PollReq.statusReq, PollReq.nodesReq])

/-- All requests issued while processing a sequence of polled statuses. -/
def pollReqs : PollState → List String → List PollReq
  | _, [] => []
  | s, st :: rest => (tick s st).2 ++ pollReqs (tick s st).1 rest

/-- Poll state of a freshly installed polling effect. -/
def initPoll : PollState := { stopped := false, timerActive := true }

/-! ## Scratchpad card parser, embedded from
`frontend/src/components/ScratchpadCards.jsx` -/

/-- Build a string from a character list. -/
def ofChars (l : List Char) : String := ⟨l⟩

/-- JavaScript whitespace characters relevant to `String.prototype.trim`
(space, tab, line feed, carriage return, vertical tab, form feed). -/
def jsWhite (c : Char) : Bool :=
  c == ' ' || c == '\t' || c == '\n' || c == '\r' || c == '\x0b' || c == '\x0c'

/-- JavaScript `String.prototype.trim`: drop whitespace from both ends. -/
def jsTrim (s : String) : String :=
  ofChars (((s.data.dropWhile jsWhite).reverse.dropWhile jsWhite).reverse)

/-- If `p` is a leading piece of `l`, return the remainder. -/
def stripLead : List Char → List Char → Option (List Char)
  | [], l => some l
  | _ :: _, [] => none
  | p :: ps, c :: cs => if p = c then stripLead ps cs else none

/-- Scanner of JavaScript `String.prototype.split` with a non-empty literal
separator: scan left to right, cutting at each non-overlapping occurrence of
the separator.  `fuel` bounds the recursion (any value above the input
length is enough); `acc` holds the current piece reversed. -/
def splitGoF (sep : List Char) : Nat → List Char → List Char → List (List Char)
  | 0, acc, rest => [acc.reverse ++ rest]
  | _ + 1, acc, [] => [acc.reverse]
  | fuel + 1, acc, c :: cs =>
      match stripLead sep (c :: cs) with
      | some rest => acc.reverse :: splitGoF sep fuel [] rest
      | none => splitGoF sep fuel (c :: acc) cs

/-- JavaScript `String.prototype.split` with a literal separator. -/
def jsSplit (s sep : String) : List String :=
  match sep.data with
  | [] => s.data.map fun c => ofChars [c]
  | c :: cs => (splitGoF (c :: cs) (s.data.length + 1) [] s.data).map ofChars

/-- JavaScript `Array.prototype.join`. -/
def jsJoin (sep : String) : List String → String
  | [] => ""
  | [x] => x
  | x :: y :: xs => x ++ sep ++ jsJoin sep (y :: xs)

/-- JavaScript `String.prototype.includes` for a non-empty literal pattern:
the string contains the pattern iff splitting on it yields more than one
part. -/
def includesSub (s pat : String) : Bool := (jsSplit s pat).length != 1

/-- One card produced by `parseScratchpadToCards`.  The overview and
fallback cards carry no `detailsContent` (the JavaScript objects omit the
field), hence the `Option`. -/
structure Card where
  title : String
  content : String
  detailsContent : Option String
  icon : String
  type : String
  metrics : List String
  expandable : Bool
deriving DecidableEq, Repr

/-- Embedded from `ScratchpadCards.jsx`: the icon/type cascade on the card's
title line (`titleLine.includes(...)` chain). -/
def iconType (titleLine : String) : String × String :=
  if includesSub titleLine "SNOWFLAKE" || includesSub titleLine "DATABASE" then
    ("🗄️", "source")
  else if includesSub titleLine "API" || includesSub titleLine "HRMS" then
    ("🌐", "source")
  else if includesSub titleLine "DRIVE" || includesSub titleLine "FILE" then
    ("📁", "source")
  else if includesSub titleLine "CSV" || includesSub titleLine "LOCAL" then
    ("💾", "source")
  else if includesSub titleLine "SCHEMA" || includesSub titleLine "NORMALI" then
    ("⚙️", "data")
  else if includesSub titleLine "DUPLICATE" || includesSub titleLine "RULE" then
    ("🔍", "rule")
  else if includesSub titleLine "MISMATCH" || includesSub titleLine "ALERT" then
    ("⚠️", "alert")
  else if includesSub titleLine "POLICY" || includesSub titleLine "COMPLIANCE" then
    ("📜", "policy")
  else if includesSub titleLine "SUMMARY" || includesSub titleLine "REPORT" then
    ("📈", "info")
  else ("📝", "info")

/-- Embedded from `ScratchpadCards.jsx`: the (lazy, leftmost) match of
`/##DETAILS##([\s\S]*?)##END_DETAILS##/` on the card body, returning the
body with the matched region removed (trimmed) and the trimmed capture.
When the pattern does not match, the body is returned unchanged with an
empty details string. -/
def detailsExtract (fullContent : String) : String × String :=
  match jsSplit fullContent "##DETAILS##" with
  | [] => (fullContent, "")
  | [_] => (fullContent, "")
  | p0 :: rest =>
      match jsSplit (jsJoin "##DETAILS##" rest) "##END_DETAILS##" with
      | [] => (fullContent, "")
      | [_] => (fullContent, "")
      | c0 :: rrest =>
          (jsTrim (p0 ++ jsJoin "##END_DETAILS##" rrest), jsTrim c0)

/-- Embedded from `ScratchpadCards.jsx`: the card built for one non-blank
`##CARD##` section (already trimmed): the first line is the title, the rest
is the body, with the `##DETAILS##` region split off. -/
def sectionCard (sec : String) : Card :=
  let ls := jsSplit sec "\n"
  let titleLine := jsTrim (ls.headD "")
  let fullContent := jsTrim (jsJoin "\n" (ls.drop 1))
  let md := detailsExtract fullContent
  let it := iconType titleLine
  { title := titleLine
    content := md.1
    detailsContent := some md.2
    icon := it.1
    type := it.2
    metrics := []
    expandable := true }

/-- The leading card built from text found before the first `##CARD##`
marker. -/
def overviewCard (intro : String) : Card :=
  { title := "Overview"
    content := intro
    detailsContent := none
    icon := "ℹ️"
    type := "overview"
    metrics := []
    expandable := false }

/-- The fallback card shown when no other card was created. -/
def agentLogsCard (text : String) : Card :=
  { title := "Agent Logs"
    content := text
    detailsContent := none
    icon := "📝"
    type := "info"
    metrics := []
    expandable := true }

/-- Embedded from `frontend/src/components/ScratchpadCards.jsx`
(`parseScratchpadToCards`): split the scratchpad text on `##CARD##`; a
non-blank leading section becomes an `Overview` card, each non-blank later
section becomes a card, and if no card was created the whole text becomes a
single `Agent Logs` card.  An empty input (falsy in JavaScript) yields no
cards. -/
def parseScratchpadToCards (text : String) : List Card :=
  if text = "" then []
  else
    let sections := jsSplit text "##CARD##"
    let introCards :=
      if jsTrim (sections.headD "") ≠ "" then
        [overviewCard (jsTrim (sections.headD ""))]
      else []
    let laterCards :=
      (sections.drop 1).filterMap fun sec =>
        if jsTrim sec = "" then none else some (sectionCard (jsTrim sec))
    let cards := introCards ++ laterCards
    if cards = [] then [agentLogsCard text] else cards

/-! ## Concrete sample data used in witnesses -/

/-- A sample employee record with every field populated. -/
def baseRec : EmployeeRecord :=
  { emp_id := "E1002"
    emp_name := "Jordan Lee"
    position := "Operations Lead"
    bonus := 7000
    paygrade := "P2"
    manager_email := "mgr@example.com"
    job_allocation := "Logistics"
    investigation_status := "past_cleared"
    leave_days_max_streak := 12 }

/-- A duplicate of `baseRec` (same key) with a different position. -/
def dupRecB : EmployeeRecord :=
  { baseRec with position := "Senior Operations Lead" }

/-- Another duplicate of `baseRec` with a third position value. -/
def dupRecC : EmployeeRecord :=
  { baseRec with position := "Operations Director" }

/-- A record exactly at the leave-streak threshold. -/
def atLimitRec : EmployeeRecord :=
  { baseRec with emp_id := "E1024", leave_days_max_streak := 20 }

/-- A record one day over the leave-streak threshold. -/
def overLimitRec : EmployeeRecord :=
  { baseRec with emp_id := "E1004", leave_days_max_streak := 21 }

/-- A record with an unrecognized investigation status. -/
def oddStatusRec : EmployeeRecord :=
  { baseRec with emp_id := "E1099", investigation_status := "escalated" }

/-! ## Proofs -/

/-! ### C3: deduplication count identity -/

/-- Rows either survive deduplication or are counted as removed, whatever
keys were already seen. -/
theorem droppedGo_dedupGo_length (l : List EmployeeRecord) :
    ∀ seen, (droppedGo seen l).length + (dedupGo seen l).length = l.length := by
  induction l with
  | nil => intro seen; simp [droppedGo, dedupGo]
  | cons r rest ih =>
      intro seen
      by_cases h : dedupKey r ∈ seen
      · simp only [droppedGo, dedupGo, if_pos h, List.length_cons]
        have := ih seen
        omega
      · simp only [droppedGo, dedupGo, if_neg h, List.length_cons]
        have := ih (dedupKey r :: seen)
        omega

/-- C3: for every input table, the `duplicates_removed` count plus the number
of final (post-deduplication) records equals the number of normalized input
rows. -/
theorem dedup_count_partition (rows : List EmployeeRecord) :
    duplicatesRemoved rows + (finalRecords rows).length = rows.length := by
  simpa [duplicatesRemoved, finalRecords] using droppedGo_dedupGo_length rows []

/-! ### C2: policy checker threshold -/

/-- C2: the policy checker flags a final record iff its
`leave_days_max_streak` is strictly greater than 20; a record at exactly 20
is never flagged, one at 21 always is. -/
theorem policy_threshold_exact (final : List EmployeeRecord)
    (r : EmployeeRecord) :
    (r ∈ flaggedRecords final ↔ r ∈ final ∧ 20 < r.leave_days_max_streak) ∧
    (r ∈ final → r.leave_days_max_streak = 20 →
      r ∉ flaggedRecords final) ∧
    (r ∈ final → r.leave_days_max_streak = 21 →
      r ∈ flaggedRecords final) := by
  have hmem : r ∈ flaggedRecords final ↔
      r ∈ final ∧ 20 < r.leave_days_max_streak := by
    simp [flaggedRecords, List.mem_filter, violatesLeave, POLICY_MAX_LEAVE]
  refine ⟨hmem, ?_, ?_⟩
  · intro _ h20 hflag
    have := (hmem.mp hflag).2
    omega
  · intro hin h21
    exact hmem.mpr ⟨hin, by omega⟩

/-- Witness for C2 at the boundary: the record with a 20-day streak is not
flagged, the one with 21 is. -/
theorem policy_threshold_exact_witness :
    atLimitRec ∉ flaggedRecords [atLimitRec, overLimitRec] ∧
      overLimitRec ∈ flaggedRecords [atLimitRec, overLimitRec] :=
  ⟨(policy_threshold_exact [atLimitRec, overLimitRec] atLimitRec).2.1
      (by decide) (by decide),
    (policy_threshold_exact [atLimitRec, overLimitRec] overLimitRec).2.2
      (by decide) (by decide)⟩

/-! ### C9: the polling loop never polls again after a terminal status -/

/-- A stopped polling loop issues no requests, whatever statuses follow. -/
theorem stopped_pollReqs (sts : List String) :
    ∀ s : PollState, s.stopped = true → pollReqs s sts = [] := by
  induction sts with
  | nil => intro s _; rfl
  | cons st rest ih =>
      intro s h
      have ht : tick s st = (s, []) := by simp [tick, h]
      simp only [pollReqs, ht]
      simpa using ih s h

/-- C9: once a poll tick observes status `completed` or `error`, the loop is
marked stopped (and, if it was live, its interval is cleared), and no further
status or nodes requests are ever issued. -/
theorem polling_never_again (s : PollState) (st : String)
    (rest : List String) (hterm : st = "completed" ∨ st = "error") :
    (tick s st).1.stopped = true ∧
    (s.stopped = false → (tick s st).1.timerActive = false) ∧
    pollReqs (tick s st).1 rest = [] := by
  have hts : terminalStatus st = true := by
    rcases hterm with h | h <;> simp [terminalStatus, h]
  by_cases hs : s.stopped
  · have ht : tick s st = (s, []) := by simp [tick, hs]
    refine ⟨by simp [ht, hs], fun hcontra => by simp [hs] at hcontra, ?_⟩
    rw [ht]
    exact stopped_pollReqs rest s hs
  · have hs' : s.stopped = false := by simpa using hs
    have ht : tick s st =
        ({ stopped := true, timerActive := false },
          [PollReq.statusReq, PollReq.nodesReq]) := by
      simp [tick, hs', hts]
    refine ⟨by simp [ht], fun _ => by simp [ht], ?_⟩
    rw [ht]
    exact stopped_pollReqs rest _ rfl

/-- Witness for C9: a live loop that polls `completed` stops, clears its
timer, and issues nothing for the subsequent polled statuses. -/
theorem polling_never_again_witness :
    (tick initPoll "completed").1.stopped = true ∧
    (initPoll.stopped = false →
      (tick initPoll "completed").1.timerActive = false) ∧
    pollReqs (tick initPoll "completed").1 ["running", "pending"] = [] :=
  polling_never_again initPoll "completed" ["running", "pending"]
    (Or.inl rfl)

/-! ### C7: investigation rollup keeps a separate bucket -/

/-- The four rollup buckets partition the final record set. -/
theorem rollup_partition (final : List EmployeeRecord) :
    (investigationRollup final).past_cleared +
      (investigationRollup final).past_flagged +
      (investigationRollup final).ongoing +
      (investigationRollup final).other = final.length := by
  induction final with
  | nil => rfl
  | cons a l ih =>
      simp only [investigationRollup, List.countP_cons, List.length_cons] at ih ⊢
      by_cases h1 : a.investigation_status = "past_cleared" <;>
        by_cases h2 : a.investigation_status = "past_flagged" <;>
          by_cases h3 : a.investigation_status = "ongoing" <;>
            simp_all [RECOGNIZED_STATUSES] <;> omega

/-- C7: the investigation rollup counts final records per recognized status
and keeps unrecognized or missing statuses in a separate bucket: the four
buckets partition the final set, and appending an unrecognized record only
grows the separate bucket, leaving the three recognized counts — and the
doughnut data the summary surface reports — unchanged. -/
theorem rollup_separate_other_bucket (final : List EmployeeRecord)
    (r : EmployeeRecord) :
    ((investigationRollup final).past_cleared +
      (investigationRollup final).past_flagged +
      (investigationRollup final).ongoing +
      (investigationRollup final).other = final.length) ∧
    (r.investigation_status ∉ RECOGNIZED_STATUSES →
      (investigationRollup (final ++ [r])).past_cleared =
          (investigationRollup final).past_cleared ∧
        (investigationRollup (final ++ [r])).past_flagged =
          (investigationRollup final).past_flagged ∧
        (investigationRollup (final ++ [r])).ongoing =
          (investigationRollup final).ongoing ∧
        (investigationRollup (final ++ [r])).other =
          (investigationRollup final).other + 1 ∧
        doughnutData (investigationRollup (final ++ [r])) =
          doughnutData (investigationRollup final)) := by
  refine ⟨rollup_partition final, fun hr => ?_⟩
  simp only [RECOGNIZED_STATUSES, List.mem_cons, List.not_mem_nil, or_false,
    not_or] at hr
  obtain ⟨h1, h2, h3⟩ := hr
  simp [investigationRollup, doughnutData, List.countP_append,
    List.countP_cons, RECOGNIZED_STATUSES, h1, h2, h3]

/-- Witness for C7: appending a record with the unrecognized status
`escalated` leaves the recognized buckets untouched. -/
theorem rollup_separate_other_bucket_witness :
    oddStatusRec.investigation_status ∉ RECOGNIZED_STATUSES ∧
      (investigationRollup ([baseRec] ++ [oddStatusRec])).other =
        (investigationRollup [baseRec]).other + 1 :=
  ⟨by decide,
    ((rollup_separate_other_bucket [baseRec] oddStatusRec).2
      (by decide)).2.2.2.1⟩

/-! ### C10: the scratchpad card parser is total and never empty -/

/-- C10: for every non-empty scratchpad text the parser returns a non-empty
card list; non-blank text before the first `##CARD##` marker becomes a
leading `Overview` card; text with no marker and no leading content yields
exactly the fallback `Agent Logs` card holding the full text. -/
theorem scratchpad_cards_total (text : String) (h : text ≠ "") :
    parseScratchpadToCards text ≠ [] ∧
    (jsTrim ((jsSplit text "##CARD##").headD "") ≠ "" →
      (parseScratchpadToCards text).head? =
        some (overviewCard (jsTrim ((jsSplit text "##CARD##").headD "")))) ∧
    (jsSplit text "##CARD##" = [text] → jsTrim text = "" →
      parseScratchpadToCards text = [agentLogsCard text]) := by
  refine ⟨?_, ?_, ?_⟩
  · unfold parseScratchpadToCards
    rw [if_neg h]
    by_cases hi : jsTrim ((jsSplit text "##CARD##").headD "") ≠ ""
    · simp only [if_pos hi]
      rw [if_neg (by simp)]
      simp
    · simp only [if_neg hi, List.nil_append]
      by_cases hc : ((jsSplit text "##CARD##").drop 1).filterMap (fun sec =>
          if jsTrim sec = "" then none else some (sectionCard (jsTrim sec))) = []
      · rw [if_pos hc]
        simp
      · rw [if_neg hc]
        exact hc
  · intro hi
    unfold parseScratchpadToCards
    rw [if_neg h]
    simp only [if_pos hi]
    simp
  · intro hsplit htr
    unfold parseScratchpadToCards
    rw [if_neg h, hsplit]
    simp [htr]

/-- Witness for C10: `"hello"` yields a leading `Overview` card, and a
whitespace-only text with no marker yields exactly the `Agent Logs`
fallback card. -/
theorem scratchpad_cards_total_witness :
    parseScratchpadToCards "hello" ≠ [] ∧
      (parseScratchpadToCards "hello").head? = some (overviewCard "hello") ∧
      parseScratchpadToCards "   " = [agentLogsCard "   "] := by
  have h1 := scratchpad_cards_total "hello" (by decide)
  have h2 := (scratchpad_cards_total "   " (by decide)).2.2 (by decide) (by decide)
  have e : jsTrim ((jsSplit "hello" "##CARD##").headD "") = "hello" := by decide
  refine ⟨h1.1, ?_, h2⟩
  have h3 := h1.2.1 (by decide)
  rw [e] at h3
  exact h3

/-! ### C4: one mismatch entry per member per differing field -/

/-- Comparing one non-canonical member against its canonical record yields
exactly one entry for field `f` when the values differ, and none
otherwise. -/
theorem mismatchesFor_countP (c x : EmployeeRecord) (f : MField) :
    ((mismatchesFor c x).countP fun m => m.field == f) =
      if fieldVal f x ≠ fieldVal f c then 1 else 0 := by
  by_cases hp : fieldVal MField.position x = fieldVal MField.position c <;>
    by_cases hb : fieldVal MField.bonus x = fieldVal MField.bonus c <;>
      by_cases hg : fieldVal MField.paygrade x = fieldVal MField.paygrade c <;>
        cases f <;>
          simp [mismatchesFor, MFIELDS, hp, hb, hg, List.countP_cons]

/-- Counting mismatch entries for a field over a pair list counts the pairs
whose values differ on that field. -/
theorem mismatch_count_pairs (ps : List (EmployeeRecord × EmployeeRecord))
    (f : MField) :
    ((ps.flatMap fun p => mismatchesFor p.1 p.2).countP
        fun m => m.field == f) =
      ps.countP fun p => decide (fieldVal f p.2 ≠ fieldVal f p.1) := by
  induction ps with
  | nil => rfl
  | cons p ps ih =>
      simp only [List.flatMap_cons, List.countP_append, List.countP_cons, ih,
        mismatchesFor_countP]
      by_cases hd : fieldVal f p.2 ≠ fieldVal f p.1 <;>
        · simp [hd]
          try omega

/-- Every duplicate pair consists of a canonical record and a member with
the same `(emp_id, emp_name)` key, whatever canonicals were already seen. -/
theorem pairGo_key_eq (l : List EmployeeRecord) :
    ∀ seen p, p ∈ pairGo seen l → dedupKey p.1 = dedupKey p.2 := by
  induction l with
  | nil => intro seen p hp; simp [pairGo] at hp
  | cons r rest ih =>
      intro seen p hp
      unfold pairGo at hp
      cases hfind : seen.find? fun c => decide (dedupKey c = dedupKey r) with
      | none =>
          rw [hfind] at hp
          exact ih _ p hp
      | some c =>
          rw [hfind] at hp
          rcases List.mem_cons.mp hp with hp | hp
          · subst hp
            have := List.find?_some hfind
            simpa using this
          · exact ih _ p hp

/-- C4: mismatch detection produces exactly one entry per non-canonical
duplicate-group member per compared field whose value differs from the
canonical member's, each pair sharing the group key; a group of three rows
all differing in `position` yields two `position` entries. -/
theorem mismatch_entries_per_member (rows : List EmployeeRecord)
    (f : MField) :
    (mismatchCount rows f =
      (dupPairs rows).countP fun p =>
        decide (fieldVal f p.2 ≠ fieldVal f p.1)) ∧
    (∀ p ∈ dupPairs rows, dedupKey p.1 = dedupKey p.2) ∧
    mismatchCount [baseRec, dupRecB, dupRecC] MField.position = 2 ∧
    (mismatches [baseRec, dupRecB, dupRecC]).length = 2 :=
  ⟨by simpa [mismatchCount, mismatches] using
      mismatch_count_pairs (dupPairs rows) f,
    fun p hp => pairGo_key_eq rows [] p hp,
    by decide, by decide⟩

/-- Witness for C4 on a three-row duplicate group all differing in
`position`: two `position` entries, and a concrete pair shares its group
key. -/
theorem mismatch_entries_per_member_witness :
    mismatchCount [baseRec, dupRecB, dupRecC] MField.position = 2 ∧
    dedupKey (baseRec, dupRecB).1 = dedupKey (baseRec, dupRecB).2 := by
  have h := mismatch_entries_per_member [baseRec, dupRecB, dupRecC]
    MField.position
  exact ⟨h.2.2.1, h.2.1 (baseRec, dupRecB) (by decide)⟩

/-! ### Executor trace lemmas (for C1, C5, C6, C8) -/

/-- A boundary-shaped state satisfies the sequencing invariant. -/
theorem shape_of_boundary (b : Nat) (x : StageStatus)
    (st : Nat → StageStatus) (hb : Boundary b x st) : Shape st := by
  obtain ⟨h1, h2, h3⟩ := hb
  intro i j hij hj
  rcases Nat.lt_trichotomy j b with hjb | hjb | hjb
  · exact h1 i (lt_trans hij hjb)
  · subst hjb
    exact h1 i hij
  · exact absurd (h3 j hjb) hj

/-- Updating the boundary stage keeps the boundary shape. -/
theorem boundary_update (b : Nat) (x y : StageStatus)
    (st : Nat → StageStatus) (hb : Boundary b x st) :
    Boundary b y (fun j => if j = b then y else st j) := by
  obtain ⟨h1, h2, h3⟩ := hb
  refine ⟨fun j hj => ?_, by simp, fun j hj => ?_⟩
  · show (if j = b then y else st j) = StageStatus.completed
    rw [if_neg (by omega)]
    exact h1 j hj
  · show (if j = b then y else st j) = StageStatus.pending
    rw [if_neg (by omega)]
    exact h3 j hj

/-- Completing the boundary stage moves the boundary one stage up. -/
theorem boundary_succ (b : Nat) (st : Nat → StageStatus)
    (hb : Boundary b StageStatus.completed st) :
    Boundary (b + 1) StageStatus.pending st := by
  obtain ⟨h1, h2, h3⟩ := hb
  refine ⟨fun j hj => ?_, h3 (b + 1) (by omega), fun j hj => h3 j (by omega)⟩
  rcases Nat.lt_or_ge j b with h | h
  · exact h1 j h
  · have hjb : j = b := by omega
    subst hjb
    exact h2

/-- Starting a pending stage is a legal transition at every index. -/
theorem step_start (i : Nat) (st : Nat → StageStatus)
    (h : st i = StageStatus.pending) :
    ∀ j, statusStep (st j) (applyEv st (Ev.start i) j) := by
  intro j
  by_cases hj : j = i
  · subst hj
    simp [applyEv, h, statusStep]
  · simp [applyEv, hj, statusStep]

/-- Finishing a running stage with a final status is a legal transition at
every index. -/
theorem step_finish (i : Nat) (s : StageStatus) (st : Nat → StageStatus)
    (h : st i = StageStatus.running)
    (hs : s = StageStatus.completed ∨ s = StageStatus.error) :
    ∀ j, statusStep (st j) (applyEv st (Ev.finish i s) j) := by
  intro j
  by_cases hj : j = i
  · subst hj
    rcases hs with hs | hs <;> subst hs <;> simp [applyEv, h, statusStep]
  · simp [applyEv, hj, statusStep]

/-- The executor emits a well-formed event list from every boundary state
with a pending current stage. -/
theorem ok_execGo (res : Nat → Bool) :
    ∀ (r i : Nat) (st : Nat → StageStatus),
      Boundary i StageStatus.pending st → Ok st (execGo res i r) := by
  intro r
  induction r with
  | zero =>
      intro i st hb
      exact Ok.nil (shape_of_boundary i _ st hb)
  | succ r ih =>
      intro i st hb
      have hat : st i = StageStatus.pending := hb.2.1
      have hb1 : Boundary i StageStatus.running (applyEv st (Ev.start i)) :=
        boundary_update i _ _ st hb
      have hat1 : applyEv st (Ev.start i) i = StageStatus.running := hb1.2.1
      cases hres : res i with
      | true =>
          have hb2 : Boundary i StageStatus.completed
              (applyEv (applyEv st (Ev.start i))
                (Ev.finish i StageStatus.completed)) :=
            boundary_update i _ _ _ hb1
          have hgo : execGo res i (r + 1) =
              Ev.start i :: Ev.finish i StageStatus.completed ::
                execGo res (i + 1) r := by
            simp [execGo, hres]
          rw [hgo]
          exact Ok.cons (shape_of_boundary i _ st hb) (step_start i st hat)
            (Ok.cons (shape_of_boundary i _ _ hb1)
              (step_finish i _ _ hat1 (Or.inl rfl))
              (ih (i + 1) _ (boundary_succ i _ hb2)))
      | false =>
          have hb2 : Boundary i StageStatus.error
              (applyEv (applyEv st (Ev.start i))
                (Ev.finish i StageStatus.error)) :=
            boundary_update i _ _ _ hb1
          have hgo : execGo res i (r + 1) =
              [Ev.start i, Ev.finish i StageStatus.error] := by
            simp [execGo, hres]
          rw [hgo]
          exact Ok.cons (shape_of_boundary i _ st hb) (step_start i st hat)
            (Ok.cons (shape_of_boundary i _ _ hb1)
              (step_finish i _ _ hat1 (Or.inr rfl))
              (Ok.nil (shape_of_boundary i _ _ hb2)))

/-- The trace of every run is well formed from the all-pending state. -/
theorem ok_trace (res : Nat → Bool) : Ok initSt (trace res) :=
  ok_execGo res numStages 0 initSt
    ⟨fun j hj => absurd hj (by omega), rfl, fun _ _ => rfl⟩

/-- Along a well-formed event list, each prefix-to-prefix move is a legal
stage transition at every index. -/
theorem ok_take_step {st : Nat → StageStatus} {evs : List Ev}
    (hok : Ok st evs) :
    ∀ t i, statusStep ((evs.take t).foldl applyEv st i)
      ((evs.take (t + 1)).foldl applyEv st i) := by
  induction hok with
  | nil hsh =>
      intro t i
      simp only [List.take_nil, List.foldl_nil]
      exact Or.inl rfl
  | cons hsh hstep hok ih =>
      intro t i
      cases t with
      | zero => simpa using hstep i
      | succ t => simpa using ih t i

/-- Along a well-formed event list, every prefix state satisfies the
sequencing invariant. -/
theorem ok_take_shape {st : Nat → StageStatus} {evs : List Ev}
    (hok : Ok st evs) :
    ∀ t, Shape ((evs.take t).foldl applyEv st) := by
  induction hok with
  | nil hsh =>
      intro t
      simpa using hsh
  | cons hsh hstep hok ih =>
      intro t
      cases t with
      | zero => simpa using hsh
      | succ t => simpa using ih t

/-- Each registry transition of a run is a legal stage transition. -/
theorem statesAt_step (res : Nat → Bool) (t i : Nat) :
    statusStep (statesAt res t i) (statesAt res (t + 1) i) :=
  ok_take_step (ok_trace res) t i

/-- Every reachable registry state of a run satisfies the sequencing
invariant. -/
theorem statesAt_shape (res : Nat → Bool) (t : Nat) :
    Shape (statesAt res t) :=
  ok_take_shape (ok_trace res) t

/-- A stage in `error` stays in `error` forever. -/
theorem statesAt_error_absorb (res : Nat → Bool) (t d i : Nat)
    (h : statesAt res t i = StageStatus.error) :
    statesAt res (t + d) i = StageStatus.error := by
  induction d with
  | zero => exact h
  | succ d ih =>
      have hstep := statesAt_step res (t + d) i
      rw [ih] at hstep
      rcases hstep with h1 | h2 | h3
      · exact h1.symm
      · exact absurd h2.1 (by decide)
      · exact absurd h3.1 (by decide)

/-- A stage never returns to `pending` after leaving it. -/
theorem statesAt_nonpending_absorb (res : Nat → Bool) (t d i : Nat)
    (h : statesAt res t i ≠ StageStatus.pending) :
    statesAt res (t + d) i ≠ StageStatus.pending := by
  induction d with
  | zero => exact h
  | succ d ih =>
      intro hp
      have hstep := statesAt_step res (t + d) i
      rcases hstep with h1 | h2 | h3
      · exact ih (by rw [h1]; exact hp)
      · exact ih h2.1
      · rcases h3.2 with hc | he
        · exact absurd (hp ▸ hc) (by decide)
        · exact absurd (hp ▸ he) (by decide)

/-- C1: along every run, each stage status only moves forward along
`pending → running → {completed, error}` in each registry transition, never
returns to `pending` once it left, and once some stage is in `error`, every
later stage stays `pending` forever. -/
theorem stage_status_monotone (res : Nat → Bool) (t t' i j : Nat)
    (hle : t ≤ t') :
    statusStep (statesAt res t i) (statesAt res (t + 1) i) ∧
    (statesAt res t i ≠ StageStatus.pending →
      statesAt res t' i ≠ StageStatus.pending) ∧
    (i < j → statesAt res t i = StageStatus.error →
      statesAt res t' j = StageStatus.pending) := by
  obtain ⟨d, rfl⟩ := Nat.le.dest hle
  refine ⟨statesAt_step res t i,
    fun h => statesAt_nonpending_absorb res t d i h,
    fun hij herr => ?_⟩
  have herr' := statesAt_error_absorb res t d i herr
  by_contra hp
  have hcomp := statesAt_shape res (t + d) i j hij hp
  rw [herr'] at hcomp
  exact absurd hcomp (by decide)

/-- Witness for C1 on the run whose second stage fails: the failed stage's
transition is legal and the third stage is still pending two transitions
later. -/
theorem stage_status_monotone_witness :
    statusStep (statesAt (fun i => i == 0) 4 1)
      (statesAt (fun i => i == 0) 5 1) ∧
    statesAt (fun i => i == 0) 6 2 = StageStatus.pending := by
  have h := stage_status_monotone (fun i => i == 0) 4 6 1 2 (by omega)
  exact ⟨h.1, h.2.2 (by omega) (by decide)⟩

/-- The stages started by the executor form a contiguous in-order block. -/
theorem execGo_starts (res : Nat → Bool) :
    ∀ r i, ∃ k, k ≤ r ∧ startsOf (execGo res i r) = List.range' i k := by
  intro r
  induction r with
  | zero =>
      intro i
      exact ⟨0, by omega, by simp [execGo, startsOf]⟩
  | succ r ih =>
      intro i
      cases hres : res i with
      | true =>
          obtain ⟨k, hk, hstarts⟩ := ih (i + 1)
          refine ⟨k + 1, by omega, ?_⟩
          have hgo : execGo res i (r + 1) =
              Ev.start i :: Ev.finish i StageStatus.completed ::
                execGo res (i + 1) r := by
            simp [execGo, hres]
          rw [hgo, List.range'_succ]
          simp only [startsOf, List.filterMap_cons] at hstarts ⊢
          simpa using hstarts
      | false =>
          refine ⟨1, by omega, ?_⟩
          have hgo : execGo res i (r + 1) =
              [Ev.start i, Ev.finish i StageStatus.error] := by
            simp [execGo, hres]
          rw [hgo]
          simp [startsOf, List.range'_succ]

/-- When every stage in the window succeeds, the executor starts all of
them. -/
theorem execGo_starts_full (res : Nat → Bool) :
    ∀ r i, (∀ j, i ≤ j → j < i + r → res j = true) →
      startsOf (execGo res i r) = List.range' i r := by
  intro r
  induction r with
  | zero =>
      intro i _
      simp [execGo, startsOf]
  | succ r ih =>
      intro i hall
      have hres : res i = true := hall i (by omega) (by omega)
      have hgo : execGo res i (r + 1) =
          Ev.start i :: Ev.finish i StageStatus.completed ::
            execGo res (i + 1) r := by
        simp [execGo, hres]
      rw [hgo, List.range'_succ]
      have hrec := ih (i + 1) fun j h1 h2 => hall j (by omega) (by omega)
      simp only [startsOf, List.filterMap_cons] at hrec ⊢
      simpa using hrec

/-- C5: every run starts the stages of the fixed ordered list in order — all
of them when every stage succeeds — starts no stage twice (no retries), and
a stage is only started once its predecessor is `completed`. -/
theorem pipeline_fixed_sequential (res : Nat → Bool) :
    ((∀ i, i < numStages → res i = true) →
      (startedStages res).map (fun i => NODES.getD i "") = NODES) ∧
    (∃ k, k ≤ numStages ∧ startedStages res = List.range k) ∧
    (∀ i, (startedStages res).count i ≤ 1) ∧
    (∀ t i, statesAt res t (i + 1) ≠ StageStatus.pending →
      statesAt res t i = StageStatus.completed) := by
  obtain ⟨k, hk, hstarts⟩ := execGo_starts res numStages 0
  have hss : startedStages res = List.range k := by
    rw [startedStages, trace, hstarts, List.range_eq_range']
  refine ⟨?_, ⟨k, hk, hss⟩, ?_, ?_⟩
  · intro hall
    have hfull : startedStages res = List.range numStages := by
      rw [startedStages, trace,
        execGo_starts_full res numStages 0 fun j _ hj => hall j (by omega),
        List.range_eq_range']
    rw [hfull]
    decide
  · intro i
    rw [hss]
    exact List.nodup_iff_count_le_one.mp (List.nodup_range k) i
  · intro t i h
    exact statesAt_shape res t i (i + 1) (by omega) h

/-- Witness for C5: the all-success run starts exactly the five fixed
stages, and its fourth stage is `completed` as soon as the fifth has
started. -/
theorem pipeline_fixed_sequential_witness :
    (startedStages (fun _ => true)).map (fun i => NODES.getD i "") = NODES ∧
    statesAt (fun _ => true) 9 3 = StageStatus.completed :=
  ⟨(pipeline_fixed_sequential (fun _ => true)).1 fun _ _ => rfl,
    (pipeline_fixed_sequential (fun _ => true)).2.2.2 9 3 (by decide)⟩

/-- Scanning the stage window for a status matches the existential over
stage indices. -/
theorem any_status_iff (st : Nat → StageStatus) (s : StageStatus) :
    (((List.range numStages).any fun i => st i == s) = true) ↔
      ∃ i, i < numStages ∧ st i = s := by
  simp [List.any_eq_true, List.mem_range]

/-- Scanning the stage window for completion matches the universal over
stage indices. -/
theorem all_completed_iff (st : Nat → StageStatus) :
    (((List.range numStages).all fun i => st i == StageStatus.completed)
        = true) ↔
      ∀ i, i < numStages → st i = StageStatus.completed := by
  simp [List.all_eq_true, List.mem_range]

/-- The derived run status is `error` exactly when some stage is. -/
theorem derivedStatus_error_iff (st : Nat → StageStatus) :
    derivedStatus st = StageStatus.error ↔
      ∃ i, i < numStages ∧ st i = StageStatus.error := by
  unfold derivedStatus
  split_ifs with h1 h2 h3
  · exact iff_of_true rfl ((any_status_iff st _).mp h1)
  · exact iff_of_false (by decide) fun hex => h1 ((any_status_iff st _).mpr hex)
  · exact iff_of_false (by decide) fun hex => h1 ((any_status_iff st _).mpr hex)
  · exact iff_of_false (by decide) fun hex => h1 ((any_status_iff st _).mpr hex)

/-- With no errored stage, the derived run status is `completed` exactly
when all stages are. -/
theorem derivedStatus_completed_iff (st : Nat → StageStatus)
    (herr : ∀ i, i < numStages → st i ≠ StageStatus.error) :
    derivedStatus st = StageStatus.completed ↔
      ∀ i, i < numStages → st i = StageStatus.completed := by
  unfold derivedStatus
  split_ifs with h1 h2 h3
  · obtain ⟨i, hi, he⟩ := (any_status_iff st _).mp h1
    exact absurd he (herr i hi)
  · exact iff_of_true rfl ((all_completed_iff st).mp h2)
  · exact iff_of_false (by decide) fun hall => h2 ((all_completed_iff st).mpr hall)
  · exact iff_of_false (by decide) fun hall => h2 ((all_completed_iff st).mpr hall)

/-- With no errored stage and not all stages completed, the derived run
status is `running` exactly when some stage is. -/
theorem derivedStatus_running_iff (st : Nat → StageStatus)
    (herr : ∀ i, i < numStages → st i ≠ StageStatus.error)
    (hncomp : ¬∀ i, i < numStages → st i = StageStatus.completed) :
    derivedStatus st = StageStatus.running ↔
      ∃ i, i < numStages ∧ st i = StageStatus.running := by
  unfold derivedStatus
  split_ifs with h1 h2 h3
  · obtain ⟨i, hi, he⟩ := (any_status_iff st _).mp h1
    exact absurd he (herr i hi)
  · exact absurd ((all_completed_iff st).mp h2) hncomp
  · exact iff_of_true rfl ((any_status_iff st _).mp h3)
  · exact iff_of_false (by decide) fun hex => h3 ((any_status_iff st _).mpr hex)

/-- With no errored, no running and not all completed stages, the derived
run status is `pending`. -/
theorem derivedStatus_pending (st : Nat → StageStatus)
    (herr : ∀ i, i < numStages → st i ≠ StageStatus.error)
    (hncomp : ¬∀ i, i < numStages → st i = StageStatus.completed)
    (hnrun : ∀ i, i < numStages → st i ≠ StageStatus.running) :
    derivedStatus st = StageStatus.pending := by
  unfold derivedStatus
  split_ifs with h1 h2 h3
  · obtain ⟨i, hi, he⟩ := (any_status_iff st _).mp h1
    exact absurd he (herr i hi)
  · exact absurd ((all_completed_iff st).mp h2) hncomp
  · obtain ⟨i, hi, hr⟩ := (any_status_iff st _).mp h3
    exact absurd hr (hnrun i hi)
  · rfl

/-- C6: the run status reported to queries is a pure function of the stage
states of the run's stage window — two runs with identical stage states get
identical statuses — and follows exactly the derivation `error` if any stage
is `error`, else `completed` if all are `completed`, else `running` if any
is `running`, else `pending`. -/
theorem run_status_derived (st st' : Nat → StageStatus) :
    ((∀ i, i < numStages → st i = st' i) →
      derivedStatus st = derivedStatus st') ∧
    (derivedStatus st = StageStatus.error ↔
      ∃ i, i < numStages ∧ st i = StageStatus.error) ∧
    ((∀ i, i < numStages → st i ≠ StageStatus.error) →
      (derivedStatus st = StageStatus.completed ↔
        ∀ i, i < numStages → st i = StageStatus.completed)) ∧
    ((∀ i, i < numStages → st i ≠ StageStatus.error) →
      ¬(∀ i, i < numStages → st i = StageStatus.completed) →
      (derivedStatus st = StageStatus.running ↔
        ∃ i, i < numStages ∧ st i = StageStatus.running)) ∧
    ((∀ i, i < numStages → st i ≠ StageStatus.error) →
      ¬(∀ i, i < numStages → st i = StageStatus.completed) →
      (∀ i, i < numStages → st i ≠ StageStatus.running) →
      derivedStatus st = StageStatus.pending) := by
  refine ⟨fun hagree => ?_, derivedStatus_error_iff st,
    derivedStatus_completed_iff st, derivedStatus_running_iff st,
    derivedStatus_pending st⟩
  have hmem : ∀ s, (∃ i, i < numStages ∧ st i = s) ↔
      (∃ i, i < numStages ∧ st' i = s) := by
    intro s
    constructor
    · rintro ⟨i, hi, he⟩
      exact ⟨i, hi, (hagree i hi).symm.trans he⟩
    · rintro ⟨i, hi, he⟩
      exact ⟨i, hi, (hagree i hi).trans he⟩
  have e1 : ((List.range numStages).any fun i => st i == StageStatus.error) =
      ((List.range numStages).any fun i => st' i == StageStatus.error) := by
    rw [Bool.eq_iff_iff, any_status_iff, any_status_iff]
    exact hmem _
  have e2 : ((List.range numStages).all
        fun i => st i == StageStatus.completed) =
      ((List.range numStages).all fun i => st' i == StageStatus.completed) := by
    rw [Bool.eq_iff_iff, all_completed_iff, all_completed_iff]
    constructor
    · intro hall i hi
      exact (hagree i hi).symm.trans (hall i hi)
    · intro hall i hi
      exact (hagree i hi).trans (hall i hi)
  have e3 : ((List.range numStages).any fun i => st i == StageStatus.running) =
      ((List.range numStages).any fun i => st' i == StageStatus.running) := by
    rw [Bool.eq_iff_iff, any_status_iff, any_status_iff]
    exact hmem _
  unfold derivedStatus
  rw [e1, e2, e3]

/-- Witness for C6: the derived status ignores stage values outside the
window, and the half-failed run derives `error`. -/
theorem run_status_derived_witness :
    derivedStatus (fun _ => StageStatus.completed) =
      derivedStatus (fun i =>
        if i < numStages then StageStatus.completed else StageStatus.pending) ∧
    derivedStatus (finalState (fun i => i == 0)) = StageStatus.error := by
  refine ⟨(run_status_derived (fun _ => StageStatus.completed)
      (fun i => if i < numStages then StageStatus.completed
        else StageStatus.pending)).1 fun i hi => by simp [hi], ?_⟩
  exact (run_status_derived (finalState (fun i => i == 0))
    (finalState (fun i => i == 0))).2.1.mpr ⟨1, by decide, by decide⟩

/-- Closed form of the final registry state when stage `k` is the first
failing stage in the executor's window: stages before `k` are `completed`,
stage `k` is `error`, everything else keeps its initial state. -/
theorem execGo_fold_fail (res : Nat → Bool) :
    ∀ (r i k : Nat) (st : Nat → StageStatus),
      i ≤ k → k < i + r → res k = false →
      (∀ j, i ≤ j → j < k → res j = true) →
      ∀ j, ((execGo res i r).foldl applyEv st) j =
        if i ≤ j ∧ j < k then StageStatus.completed
        else if j = k then StageStatus.error
        else st j := by
  intro r
  induction r with
  | zero =>
      intro i k st hik hkr
      exact absurd hkr (by omega)
  | succ r ih =>
      intro i k st hik hkr hkf hpre j
      by_cases hki : k = i
      · subst hki
        have hgo : execGo res k (r + 1) =
            [Ev.start k, Ev.finish k StageStatus.error] := by
          simp [execGo, hkf]
        rw [hgo]
        simp only [List.foldl_cons, List.foldl_nil, applyEv]
        by_cases hj : j = k
        · simp [hj]
        · simp [hj, show ¬(k ≤ j ∧ j < k) by omega]
      · have hres : res i = true := hpre i (by omega) (by omega)
        have hgo : execGo res i (r + 1) =
            Ev.start i :: Ev.finish i StageStatus.completed ::
              execGo res (i + 1) r := by
          simp [execGo, hres]
        rw [hgo]
        simp only [List.foldl_cons]
        have hrec := ih (i + 1) k
          (applyEv (applyEv st (Ev.start i)) (Ev.finish i StageStatus.completed))
          (by omega) (by omega) hkf (fun j h1 h2 => hpre j (by omega) h2) j
        rw [hrec]
        by_cases h1 : j = i
        · subst h1
          simp [applyEv, show ¬(j + 1 ≤ j ∧ j < k) by omega,
            show ¬j = k from fun h => hki h.symm,
            show j ≤ j ∧ j < k by omega]
        · have hiff : (i + 1 ≤ j ∧ j < k) ↔ (i ≤ j ∧ j < k) := by omega
          by_cases h2 : i ≤ j ∧ j < k
          · simp [hiff.mpr h2, h2]
          · simp only [if_neg (fun hc => h2 (hiff.mp hc)), if_neg h2]
            by_cases h3 : j = k
            · simp [h3]
            · simp [h3, applyEv, h1]

/-- Distinct stages have distinct artifact names. -/
theorem artifact_names_inj : ∀ i < numStages, ∀ j < numStages,
    ARTIFACT_NAMES.getD i "" = ARTIFACT_NAMES.getD j "" → i = j := by
  decide

/-- C8: after the first failing stage, status queries still succeed and
report the `error` run status together with the failing stage's error
message, while scratchpad and artifact reads of the failing and all later
stages return `NotFound` (`none`); in general a scratchpad read, and an
artifact read for a stage of the window, return `none` exactly for the
stages that did not complete. -/
theorem queries_total_after_failure (res : Nat → Bool) (msg : Nat → String)
    (k : Nat) (hk : k < numStages) (hfail : res k = false)
    (hpre : ∀ j, j < k → res j = true) :
    (statusQuery res msg).1 = StageStatus.error ∧
    (k, ({ status := StageStatus.error, message := some (msg k) } :
        StageReport)) ∈ (statusQuery res msg).2 ∧
    (∀ j, k ≤ j → readScratchpad (scratchpadStore res) j = none) ∧
    (∀ j, readScratchpad (scratchpadStore res) j = none ↔
      finalState res j ≠ StageStatus.completed) ∧
    (∀ j, k ≤ j → j < numStages →
      readArtifact (artifactStore res) (ARTIFACT_NAMES.getD j "") = none) ∧
    (∀ j, j < numStages →
      (readArtifact (artifactStore res) (ARTIFACT_NAMES.getD j "") = none ↔
        finalState res j ≠ StageStatus.completed)) := by
  have hclosed : ∀ j, finalState res j =
      if 0 ≤ j ∧ j < k then StageStatus.completed
      else if j = k then StageStatus.error
      else StageStatus.pending :=
    execGo_fold_fail res numStages 0 k initSt (by omega) (by omega) hfail
      (fun j _ hj => hpre j hj)
  have hfk : finalState res k = StageStatus.error := by
    rw [hclosed k]
    simp
  have hcompk : ∀ j, finalState res j = StageStatus.completed → j < k := by
    intro j hcomp
    rcases Nat.lt_or_ge j k with h | h
    · exact h
    · exfalso
      rw [hclosed j, if_neg (by omega)] at hcomp
      by_cases hjk2 : j = k
      · rw [if_pos hjk2] at hcomp
        exact absurd hcomp (by decide)
      · rw [if_neg hjk2] at hcomp
        exact absurd hcomp (by decide)
  have hiff : ∀ j, readScratchpad (scratchpadStore res) j = none ↔
      finalState res j ≠ StageStatus.completed := by
    intro j
    rw [readScratchpad, Option.map_eq_none', List.find?_eq_none]
    constructor
    · intro hnone hcomp
      have hjk : j < k := hcompk j hcomp
      have hmem : (j, NODES.getD j "") ∈ scratchpadStore res := by
        unfold scratchpadStore completedStages
        refine List.mem_map.mpr ⟨j, ?_, rfl⟩
        exact List.mem_filter.mpr
          ⟨List.mem_range.mpr (by omega), by simp [hcomp]⟩
      have := hnone _ hmem
      simp at this
    · intro hne p hp
      unfold scratchpadStore completedStages at hp
      obtain ⟨i, hi, rfl⟩ := List.mem_map.mp hp
      obtain ⟨hir, hic⟩ := List.mem_filter.mp hi
      simp only [beq_iff_eq] at hic
      simp only [beq_iff_eq]
      intro hij
      exact hne (hij ▸ hic)
  have haiff : ∀ j, j < numStages →
      (readArtifact (artifactStore res) (ARTIFACT_NAMES.getD j "") = none ↔
        finalState res j ≠ StageStatus.completed) := by
    intro j hjn
    rw [readArtifact, Option.map_eq_none', List.find?_eq_none]
    constructor
    · intro hnone hcomp
      have hjk : j < k := hcompk j hcomp
      have hmem : (ARTIFACT_NAMES.getD j "", NODES.getD j "") ∈
          artifactStore res := by
        unfold artifactStore completedStages
        refine List.mem_map.mpr ⟨j, ?_, rfl⟩
        exact List.mem_filter.mpr
          ⟨List.mem_range.mpr (by omega), by simp [hcomp]⟩
      have := hnone _ hmem
      simp at this
    · intro hne p hp
      unfold artifactStore completedStages at hp
      obtain ⟨i, hi, rfl⟩ := List.mem_map.mp hp
      obtain ⟨hir, hic⟩ := List.mem_filter.mp hi
      simp only [beq_iff_eq] at hic
      simp only [beq_iff_eq]
      intro hij
      have hin : i < numStages := List.mem_range.mp hir
      have hieq : i = j := artifact_names_inj i hin j hjn hij
      exact hne (hieq ▸ hic)
  refine ⟨?_, ?_, ?_, hiff, ?_, haiff⟩
  · exact (derivedStatus_error_iff (finalState res)).mpr ⟨k, hk, hfk⟩
  · refine List.mem_map.mpr ⟨k, List.mem_range.mpr hk, ?_⟩
    rw [hfk]
    rfl
  · intro j hj
    rw [hiff j, hclosed j]
    split_ifs with h1 h2
    · exact absurd h1.2 (by omega)
    · decide
    · decide
  · intro j hj hjn
    rw [haiff j hjn, hclosed j]
    split_ifs with h1 h2
    · exact absurd h1.2 (by omega)
    · decide
    · decide

/-- Witness for C8 on the run whose second stage fails: the status query
reports `error` with the message, and the scratchpads and artifacts of the
failing and a later stage read as `NotFound`. -/
theorem queries_total_after_failure_witness :
    (statusQuery (fun i => i == 0) (fun _ => "boom")).1 =
      StageStatus.error ∧
    readScratchpad (scratchpadStore (fun i => i == 0)) 1 = none ∧
    readScratchpad (scratchpadStore (fun i => i == 0)) 3 = none ∧
    readArtifact (artifactStore (fun i => i == 0))
      (ARTIFACT_NAMES.getD 1 "") = none ∧
    readArtifact (artifactStore (fun i => i == 0))
      (ARTIFACT_NAMES.getD 3 "") = none := by
  have h := queries_total_after_failure (fun i => i == 0) (fun _ => "boom") 1
    (by decide) rfl (fun j hj => by
      have : j = 0 := by omega
      subst this
      rfl)
  exact ⟨h.1, h.2.2.1 1 (by omega), h.2.2.1 3 (by omega),
    h.2.2.2.2.1 1 (by omega) (by decide), h.2.2.2.2.1 3 (by omega) (by decide)⟩
